import Mathlib

/-!
# Verification of `property_prediction/data_utils.py`

Shallow embedding of the data-loading and data-transformation utilities of the
Photoswitches repository.  Each Python function is translated into a Lean
definition over lists (the two relevant columns of the CSV table are passed as
explicit lists); Python exceptions (`ValueError` from `list.remove`,
`IndexError` from out-of-range indexing and from `np.delete`) are modelled by
`Option`, with `none` standing for a raised exception.  Numeric target values
are modelled as exact rationals in the loaders and as real numbers in the
`transform_data` model.
-/

/-- Model of Python `list.remove(v)`: removes the first occurrence of `v`,
raises `ValueError` (here: `none`) when `v` does not occur. -/
def pyRemove (l : List String) (v : String) : Option (List String) :=
  if v ∈ l then some (l.erase v) else none

/-- Model of `np.delete(arr, i)` for a single integer index: raises
`IndexError` (here: `none`) when `i` is out of bounds, otherwise removes the
entry at position `i`. -/
def npDeleteOne (l : List ℚ) (i : ℕ) : Option (List ℚ) :=
  if i < l.length then some (l.eraseIdx i) else none

/-- Model of `np.delete(arr, indices)` for an array of indices: raises
`IndexError` (here: `none`) when some index is out of bounds, otherwise keeps
exactly the entries whose position is not listed, in their original order. -/
def npDelete (l : List ℚ) (sel : List ℕ) : Option (List ℚ) :=
  if sel.all (fun i => decide (i < l.length)) then
    some (((List.range l.length).filter (fun i => !(sel.contains i))).filterMap (fun i => l.get? i))
  else none

/-- `load_thermal_data`: keep the first 65 rows of the SMILES column and of the
thermal-isomerisation-rate column. -/
def load_thermal_data (smiles : List String) (vals : List ℚ) :
    List String × List ℚ :=
  (smiles.take 65, vals.take 65)

/-- The literal SMILES string removed by `load_e_iso_pi_data`
(`'C12=CC=CC=C1CCC3=CC=CC=C3/N=N\\2'` in the Python source). -/
def eIsoPiOutlier : String := "C12=CC=CC=C1CCC3=CC=CC=C3/N=N\\2"

/-- `load_e_iso_pi_data`: remove the first occurrence of `eIsoPiOutlier` from
the SMILES column (raising `ValueError` when absent), and delete position 31
of the E-isomer pi-pi* wavelength column as read from the file. -/
def load_e_iso_pi_data (smiles : List String) (vals : List ℚ) :
    Option (List String × List ℚ) :=
  match pyRemove smiles eIsoPiOutlier with
  | none => none
  | some s => (npDeleteOne vals 31).map (fun v => (s, v))

/-- `load_e_iso_n_data`: keep SMILES slices `[0:14) ++ [15:38) ++ [39:]` and
delete positions 14 and 38 of the E-isomer n-pi* wavelength column. -/
def load_e_iso_n_data (smiles : List String) (vals : List ℚ) :
    Option (List String × List ℚ) :=
  (npDelete vals [14, 38]).map
    (fun v => (smiles.take 14 ++ (smiles.drop 15).take 23 ++ smiles.drop 39, v))

/-- The index selection deleted from the Z-isomer pi-pi* wavelength column,
built by the same chain of `np.concatenate` calls as the Python source. -/
def zIsoPiSelection : List ℕ :=
  List.range' 12 3 ++ ([25] ++ ([27] ++ (List.range' 31 2 ++ (List.range' 34 3 ++ List.range' 38 4))))

/-- `load_z_iso_pi_data`: keep SMILES slices
`[0:12) ++ [15:25) ++ [26] ++ [28:31) ++ [33] ++ [37] ++ [42:]` (single
indexing raises `IndexError` when out of range) and delete `zIsoPiSelection`
from the Z-isomer pi-pi* wavelength column. -/
def load_z_iso_pi_data (smiles : List String) (vals : List ℚ) :
    Option (List String × List ℚ) :=
  match smiles.get? 26, smiles.get? 33, smiles.get? 37 with
  | some a, some b, some c =>
      (npDelete vals zIsoPiSelection).map
        (fun v => (smiles.take 12 ++ (smiles.drop 15).take 10 ++ [a] ++
          (smiles.drop 28).take 3 ++ [b] ++ [c] ++ smiles.drop 42, v))
  | _, _, _ => none

/-- The keep-list of original row indices realised by the slicing in
`load_z_iso_pi_data`, for a table with `n` rows. -/
def zIsoPiKept (n : ℕ) : List ℕ :=
  List.range' 0 12 ++ List.range' 15 10 ++ [26] ++ List.range' 28 3 ++ [33] ++ [37] ++
    List.range' 42 (n - 42)

/-- `load_z_iso_n_data`: keep SMILES slices
`[0:12) ++ [15:32) ++ [33:41) ++ [42:]` and delete positions
`[12, 13, 14, 32, 41]` of the Z-isomer n-pi* wavelength column. -/
def load_z_iso_n_data (smiles : List String) (vals : List ℚ) :
    Option (List String × List ℚ) :=
  (npDelete vals [12, 13, 14, 32, 41]).map
    (fun v => (smiles.take 12 ++ (smiles.drop 15).take 17 ++
      (smiles.drop 33).take 8 ++ smiles.drop 42, v))


/-! ## Model of `transform_data`

`X` matrices are row-major lists of rows of reals; `y` vectors are lists of
reals.  `StandardScaler` statistics follow sklearn: per-column mean, biased
(population) variance, and a scale equal to the standard deviation with exact
zeros replaced by `1` (`_handle_zeros_in_scale`).  PCA follows sklearn's fit:
the data is centered by its column means, the `explained_variance_` are the
squared singular values of the centered matrix divided by `n - 1` (realised
here as the eigenvalues of the Gram matrix `Xcᴴ * Xc`, scaled), the
`explained_variance_ratio_` divide by the total, and the kept components are
the eigenvectors belonging to the `n_components` largest eigenvalues. -/

/-- Arithmetic mean of a list of reals (`0` for the empty list, matching the
`0/0 = 0` convention of the reals). -/
noncomputable def listMean (l : List ℝ) : ℝ := l.sum / l.length

/-- Population variance (`ddof = 0`), as fitted by `StandardScaler`. -/
noncomputable def listVar (l : List ℝ) : ℝ :=
  (l.map (fun x => (x - listMean l) ^ 2)).sum / l.length

/-- Per-column scale of `StandardScaler`: the standard deviation, with exact
zeros replaced by `1` (sklearn's `_handle_zeros_in_scale`). -/
noncomputable def scaleOf (l : List ℝ) : ℝ :=
  if Real.sqrt (listVar l) = 0 then 1 else Real.sqrt (listVar l)

/-- Number of feature columns of a row-major matrix. -/
def numCols (X : List (List ℝ)) : ℕ := (X.headD []).length

/-- Column `j` of a row-major matrix (entries of short rows read as `0`;
inputs are rectangular wherever the Python code is defined). -/
def colVals (X : List (List ℝ)) (j : ℕ) : List ℝ := X.map (fun r => r.getD j 0)

/-- A fitted `StandardScaler`: per-column means and scales. -/
structure StandardScaler where
  mean_ : List ℝ
  scale_ : List ℝ

/-- `StandardScaler().fit(X)`: statistics computed from `X` alone. -/
noncomputable def fitScaler (X : List (List ℝ)) : StandardScaler :=
  { mean_ := (List.range (numCols X)).map (fun j => listMean (colVals X j)),
    scale_ := (List.range (numCols X)).map (fun j => scaleOf (colVals X j)) }

/-- `scaler.transform(X)`: `(x - mean) / scale`, column-wise. -/
noncomputable def scalerTransform (s : StandardScaler) (X : List (List ℝ)) :
    List (List ℝ) :=
  X.map (fun r => (List.range s.mean_.length).map
    (fun j => (r.getD j 0 - s.mean_.getD j 0) / s.scale_.getD j 1))

/-- `scaler.inverse_transform(X)`: `x * scale + mean`, column-wise. -/
noncomputable def scalerInverseTransform (s : StandardScaler) (X : List (List ℝ)) :
    List (List ℝ) :=
  X.map (fun r => (List.range s.mean_.length).map
    (fun j => r.getD j 0 * s.scale_.getD j 1 + s.mean_.getD j 0))

/-- `y.reshape(-1, 1)`: a vector as a single-column matrix. -/
def reshapeCol (y : List ℝ) : List (List ℝ) := y.map (fun v => [v])

/-- The centered data matrix of a PCA fit on `X`. -/
noncomputable def pcaCentered (X : List (List ℝ)) :
    Matrix (Fin X.length) (Fin (numCols X)) ℝ :=
  Matrix.of (fun i j => (X.get i).getD (j : ℕ) 0 - listMean (colVals X (j : ℕ)))

/-- sklearn's `explained_variance_` over all components: the squared singular
values of the centered matrix divided by `n - 1`, realised as the eigenvalues
of the Gram matrix `Xcᴴ * Xc` scaled by `(n - 1)⁻¹`. -/
noncomputable def pcaEigen (X : List (List ℝ)) : Fin (numCols X) → ℝ :=
  fun i => ((X.length : ℝ) - 1)⁻¹ *
    (Matrix.isHermitian_transpose_mul_self (pcaCentered X)).eigenvalues i

/-- The explained variance of the `i`-th kept component: the `(i+1)`-th
largest entry of `pcaEigen` (PCA keeps components by decreasing variance). -/
noncomputable def pcaSortedEigen (X : List (List ℝ)) (i : ℕ) : ℝ :=
  if h : 0 < numCols X then
    pcaEigen X (Tuple.sort (pcaEigen X) ⟨numCols X - 1 - i, by omega⟩)
  else 0

/-- sklearn's `explained_variance_ratio_` of the `i`-th kept component. -/
noncomputable def pcaRatio (X : List (List ℝ)) (i : ℕ) : ℝ :=
  pcaSortedEigen X i / ∑ j, pcaEigen X j

/-- The diagnostic printed by `transform_data`:
`sum(pca.explained_variance_ratio_)` over the `k` kept components. -/
noncomputable def pcaRetainedVariance (X : List (List ℝ)) (k : ℕ) : ℝ :=
  ∑ i ∈ Finset.range k, pcaRatio X i

/-- The eigenvector (right singular vector of the centered matrix) belonging
to the `(i+1)`-th largest eigenvalue: row `i` of sklearn's `components_`. -/
noncomputable def pcaComponent (X : List (List ℝ)) (i : ℕ) :
    Fin (numCols X) → ℝ :=
  if h : 0 < numCols X then
    fun j => (Matrix.isHermitian_transpose_mul_self (pcaCentered X)).eigenvectorBasis
      (Tuple.sort (pcaEigen X) ⟨numCols X - 1 - i, by omega⟩) j
  else fun _ => 0

/-- `PCA(n_components)`: `None` keeps `min(n_samples, n_features)`
components. -/
def pcaNComponents (X : List (List ℝ)) (k : Option ℕ) : ℕ :=
  match k with
  | some k => k
  | none => min X.length (numCols X)

/-- Projection of one row on the `k` kept components of a PCA fit on `Xfit`
(the row is centered by the fit's column means first). -/
noncomputable def pcaProject (Xfit : List (List ℝ)) (k : ℕ) (r : List ℝ) :
    List ℝ :=
  (List.range k).map (fun i =>
    ∑ j : Fin (numCols Xfit),
      (r.getD (j : ℕ) 0 - listMean (colVals Xfit (j : ℕ))) * pcaComponent Xfit i j)

/-- `pca.fit_transform(X)`. -/
noncomputable def pcaFitTransform (X : List (List ℝ)) (k : ℕ) : List (List ℝ) :=
  X.map (pcaProject X k)

/-- `pca.transform(X)` for a PCA fitted on `Xfit`. -/
noncomputable def pcaTransform (Xfit X : List (List ℝ)) (k : ℕ) :
    List (List ℝ) :=
  X.map (pcaProject Xfit k)

/-- `transform_data`: fit a feature scaler on `X_train` alone and apply it to
both feature matrices; fit a target scaler on `y_train.reshape(-1, 1)` and
apply it to both target vectors; when `use_pca`, fit a PCA on the scaled
`X_train` and project both scaled feature matrices.  Returns the transformed
data and the fitted target scaler. -/
noncomputable def transform_data (X_train : List (List ℝ)) (y_train : List ℝ)
    (X_test : List (List ℝ)) (y_test : List ℝ) (n_components : Option ℕ)
    (use_pca : Bool) :
    List (List ℝ) × List (List ℝ) × List (List ℝ) × List (List ℝ) ×
      StandardScaler :=
  let x_scaler := fitScaler X_train
  let X_train_scaled := scalerTransform x_scaler X_train
  let X_test_scaled := scalerTransform x_scaler X_test
  let y_scaler := fitScaler (reshapeCol y_train)
  let y_train_scaled := scalerTransform y_scaler (reshapeCol y_train)
  let y_test_scaled := scalerTransform y_scaler (reshapeCol y_test)
  if use_pca then
    let k := pcaNComponents X_train_scaled n_components
    (pcaFitTransform X_train_scaled k, y_train_scaled,
      pcaTransform X_train_scaled X_test_scaled k, y_test_scaled, y_scaler)
  else
    (X_train_scaled, y_train_scaled, X_test_scaled, y_test_scaled, y_scaler)

/-! ## Helper lemmas about slices, index lists and `npDelete` -/

theorem filterMap_get?_range' (l : List α) :
    ∀ (m a : ℕ), a + m ≤ l.length →
      (List.range' a m).filterMap (fun i => l.get? i) = (l.drop a).take m := by
  intro m
  induction m with
  | zero => simp
  | succ m ih =>
    intro a h
    have ha : a < l.length := by omega
    rw [List.range'_succ, List.filterMap_cons]
    have hg : l.get? a = some (l.get ⟨a, ha⟩) := List.get?_eq_get ha
    rw [hg, ih (a + 1) (by omega)]
    rw [List.drop_eq_getElem_cons ha, List.take_succ_cons]
    simp [List.get_eq_getElem]

theorem filterMap_get?_length (l : List α) (K : List ℕ)
    (h : ∀ i ∈ K, i < l.length) :
    (K.filterMap (fun i => l.get? i)).length = K.length := by
  induction K with
  | nil => simp
  | cons a K ih =>
    have ha : a < l.length := h a (by simp)
    rw [List.filterMap_cons, List.get?_eq_get ha]
    simp only [List.length_cons]
    rw [ih (fun i hi => h i (by simp [hi]))]

theorem range_filter_split (sel : List ℕ) (B n : ℕ) (hB : B ≤ n)
    (hsel : ∀ i ∈ sel, i < B) :
    (List.range n).filter (fun i => !(sel.contains i)) =
      (List.range B).filter (fun i => !(sel.contains i)) ++ List.range' B (n - B) := by
  have hr : List.range B ++ List.range' B (n - B) = List.range n := by
    rw [List.range_eq_range', List.range_eq_range']
    have h0 : (0 : ℕ) + B = B := Nat.zero_add B
    calc List.range' 0 B ++ List.range' B (n - B)
        = List.range' 0 B ++ List.range' (0 + B) (n - B) := by rw [h0]
      _ = List.range' 0 (n - B + B) := List.range'_append_1 0 B (n - B)
      _ = List.range' 0 n := by congr 1; omega
  rw [← hr, List.filter_append]
  congr 1
  rw [List.filter_eq_self]
  intro a hmem
  have hB' : B ≤ a := by simpa using (List.mem_range'_1.mp hmem).1
  have hno : a ∉ sel := fun hc => absurd (hsel a hc) (by omega)
  simpa using hno

theorem npDelete_of_bounded (l : List ℚ) (sel : List ℕ)
    (h : ∀ i ∈ sel, i < l.length) :
    npDelete l sel =
      some (((List.range l.length).filter (fun i => !(sel.contains i))).filterMap
        (fun i => l.get? i)) := by
  unfold npDelete
  rw [if_pos]
  rw [List.all_eq_true]
  intro i hi
  simpa using h i hi

theorem npDelete_eq_split (l : List ℚ) (sel : List ℕ) (B : ℕ) (hB : B ≤ l.length)
    (hsel : ∀ i ∈ sel, i < B) :
    npDelete l sel =
      some ((((List.range B).filter (fun i => !(sel.contains i))) ++
        List.range' B (l.length - B)).filterMap (fun i => l.get? i)) := by
  rw [npDelete_of_bounded l sel (fun i hi => lt_of_lt_of_le (hsel i hi) hB)]
  rw [range_filter_split sel B l.length hB hsel]

theorem npDelete_some_length (l : List ℚ) (sel : List ℕ) (B : ℕ) (hB : B ≤ l.length)
    (hsel : ∀ i ∈ sel, i < B) :
    ∃ v, npDelete l sel = some v ∧
      v.length = ((List.range B).filter (fun i => !(sel.contains i))).length +
        (l.length - B) := by
  refine ⟨_, npDelete_eq_split l sel B hB hsel, ?_⟩
  rw [filterMap_get?_length]
  · rw [List.length_append, List.length_range']
  · intro i hi
    rcases List.mem_append.mp hi with h1 | h2
    · have := List.mem_range.mp (List.mem_filter.mp h1).1
      omega
    · have := (List.mem_range'_1.mp h2).2
      omega

theorem load_e_iso_pi_eq (smiles : List String) (vals : List ℚ)
    (hlit : eIsoPiOutlier ∈ smiles) (h31 : 31 < vals.length) :
    load_e_iso_pi_data smiles vals =
      some (smiles.erase eIsoPiOutlier, vals.eraseIdx 31) := by
  unfold load_e_iso_pi_data pyRemove npDeleteOne
  rw [if_pos hlit, if_pos h31]
  rfl

/-- Option-valued loader result with identifier and target sequences of equal
length (`none`, i.e. a raised exception, does not count). -/
def pairLenEq : Option (List String × List ℚ) → Prop
  | none => False
  | some p => p.1.length = p.2.length

/-- **C1.** For every input table satisfying the loaders' preconditions (equal
row counts of the SMILES and property columns, at least 65 rows so that every
hard-coded index is in range, and the literal outlier SMILES present), each of
the five loaders returns an identifier sequence and a target sequence of equal
length. -/
theorem C1_loaders_equal_length (smiles : List String) (vals : List ℚ)
    (hlen : smiles.length = vals.length) (h65 : 65 ≤ smiles.length)
    (hlit : eIsoPiOutlier ∈ smiles) :
    (load_thermal_data smiles vals).1.length =
      (load_thermal_data smiles vals).2.length ∧
    pairLenEq (load_e_iso_pi_data smiles vals) ∧
    pairLenEq (load_e_iso_n_data smiles vals) ∧
    pairLenEq (load_z_iso_pi_data smiles vals) ∧
    pairLenEq (load_z_iso_n_data smiles vals) := by
  refine ⟨?_, ?_, ?_, ?_, ?_⟩
  · simp [load_thermal_data, hlen]
  · rw [load_e_iso_pi_eq smiles vals hlit (by omega)]
    show (smiles.erase eIsoPiOutlier).length = (vals.eraseIdx 31).length
    rw [List.length_erase_of_mem hlit, List.length_eraseIdx, if_pos (by omega)]
    omega
  · obtain ⟨v, hv, hvlen⟩ :=
      npDelete_some_length vals [14, 38] 39 (by omega) (by decide)
    unfold load_e_iso_n_data
    rw [hv]
    show _ = v.length
    rw [hvlen]
    have h37 : ((List.range 39).filter
        (fun i => !(([14, 38] : List ℕ).contains i))).length = 37 := by decide
    rw [h37]
    simp only [List.length_append, List.length_take, List.length_drop]
    omega
  · have h26 : smiles.get? 26 = some (smiles.get ⟨26, by omega⟩) :=
      List.get?_eq_get (by omega)
    have h33 : smiles.get? 33 = some (smiles.get ⟨33, by omega⟩) :=
      List.get?_eq_get (by omega)
    have h37 : smiles.get? 37 = some (smiles.get ⟨37, by omega⟩) :=
      List.get?_eq_get (by omega)
    obtain ⟨v, hv, hvlen⟩ :=
      npDelete_some_length vals zIsoPiSelection 42 (by omega) (by decide)
    unfold load_z_iso_pi_data
    rw [h26, h33, h37, hv]
    show _ = v.length
    rw [hvlen]
    have h28 : ((List.range 42).filter
        (fun i => !(zIsoPiSelection.contains i))).length = 28 := by decide
    rw [h28]
    simp only [List.length_append, List.length_take, List.length_drop,
      List.length_cons, List.length_nil]
    omega
  · obtain ⟨v, hv, hvlen⟩ :=
      npDelete_some_length vals [12, 13, 14, 32, 41] 42 (by omega) (by decide)
    unfold load_z_iso_n_data
    rw [hv]
    show _ = v.length
    rw [hvlen]
    have h37 : ((List.range 42).filter
        (fun i => !(([12, 13, 14, 32, 41] : List ℕ).contains i))).length = 37 := by
      decide
    rw [h37]
    simp only [List.length_append, List.length_take, List.length_drop]
    omega

theorem zIsoPiKept_filterMap (l : List α) (h42 : 42 ≤ l.length) :
    (zIsoPiKept l.length).filterMap (fun i => l.get? i) =
      l.take 12 ++ (l.drop 15).take 10 ++ [l.get ⟨26, by omega⟩] ++ (l.drop 28).take 3 ++
        [l.get ⟨33, by omega⟩] ++ [l.get ⟨37, by omega⟩] ++ l.drop 42 := by
  have e26 : ([26] : List ℕ).filterMap (fun i => l.get? i) = [l.get ⟨26, by omega⟩] := by
    rw [List.filterMap_cons, List.get?_eq_get (by omega : 26 < l.length), List.filterMap_nil]
  have e33 : ([33] : List ℕ).filterMap (fun i => l.get? i) = [l.get ⟨33, by omega⟩] := by
    rw [List.filterMap_cons, List.get?_eq_get (by omega : 33 < l.length), List.filterMap_nil]
  have e37 : ([37] : List ℕ).filterMap (fun i => l.get? i) = [l.get ⟨37, by omega⟩] := by
    rw [List.filterMap_cons, List.get?_eq_get (by omega : 37 < l.length), List.filterMap_nil]
  have etail : (l.drop 42).take (l.length - 42) = l.drop 42 := by
    apply List.take_of_length_le
    simp
  unfold zIsoPiKept
  rw [List.filterMap_append, List.filterMap_append, List.filterMap_append,
    List.filterMap_append, List.filterMap_append, List.filterMap_append]
  rw [filterMap_get?_range' l 12 0 (by omega), filterMap_get?_range' l 10 15 (by omega),
    filterMap_get?_range' l 3 28 (by omega),
    filterMap_get?_range' l (l.length - 42) 42 (by omega)]
  rw [e26, e33, e37, List.drop_zero, etail]

theorem zIsoPiKept_eq_filter (n : ℕ) (h42 : 42 ≤ n) :
    zIsoPiKept n = (List.range n).filter (fun i => !(zIsoPiSelection.contains i)) := by
  rw [range_filter_split zIsoPiSelection 42 n h42 (by decide)]
  have hfilt : (List.range 42).filter (fun i => !(zIsoPiSelection.contains i)) =
      [0, 1, 2, 3, 4, 5, 6, 7, 8, 9, 10, 11, 15, 16, 17, 18, 19, 20, 21, 22, 23, 24,
       26, 28, 29, 30, 33, 37] := by decide
  rw [hfilt]
  rfl

/-- **C2.** For every input table with at least 42 rows, `load_z_iso_pi_data`
keeps exactly the identifier positions `[0:12) ++ [15:25) ++ [26] ++ [28:31) ++
[33] ++ [37] ++ [42:n)` in that order, deletes exactly the target positions
`[12, 13, 14, 25, 27, 31, 32, 34, 35, 36, 38, 39, 40, 41]`, and these position
sets are complementary, so output index `i` of both sequences comes from the
same original row (both outputs read off the common keep-list `zIsoPiKept`). -/
theorem C2_z_iso_pi_positions (smiles : List String) (vals : List ℚ)
    (h42 : 42 ≤ smiles.length) (hlen : vals.length = smiles.length) :
    zIsoPiSelection = [12, 13, 14, 25, 27, 31, 32, 34, 35, 36, 38, 39, 40, 41] ∧
    zIsoPiKept smiles.length =
      (List.range smiles.length).filter (fun i => !(zIsoPiSelection.contains i)) ∧
    load_z_iso_pi_data smiles vals =
      some ((zIsoPiKept smiles.length).filterMap (fun i => smiles.get? i),
        (zIsoPiKept smiles.length).filterMap (fun i => vals.get? i)) := by
  refine ⟨by decide, zIsoPiKept_eq_filter smiles.length h42, ?_⟩
  have h26 : smiles.get? 26 = some (smiles.get ⟨26, by omega⟩) := List.get?_eq_get (by omega)
  have h33 : smiles.get? 33 = some (smiles.get ⟨33, by omega⟩) := List.get?_eq_get (by omega)
  have h37 : smiles.get? 37 = some (smiles.get ⟨37, by omega⟩) := List.get?_eq_get (by omega)
  have hbound : ∀ i ∈ zIsoPiSelection, i < vals.length := by
    intro i hi
    have h42' : i < 42 := by revert i hi; decide
    omega
  have hs : (zIsoPiKept smiles.length).filterMap (fun i => smiles.get? i) =
      smiles.take 12 ++ (smiles.drop 15).take 10 ++ [smiles.get ⟨26, by omega⟩] ++
        (smiles.drop 28).take 3 ++ [smiles.get ⟨33, by omega⟩] ++
        [smiles.get ⟨37, by omega⟩] ++ smiles.drop 42 :=
    zIsoPiKept_filterMap smiles h42
  have hv : ((List.range vals.length).filter
      (fun i => !(zIsoPiSelection.contains i))).filterMap (fun i => vals.get? i) =
      (zIsoPiKept smiles.length).filterMap (fun i => vals.get? i) := by
    rw [← hlen, zIsoPiKept_eq_filter vals.length (by omega)]
  unfold load_z_iso_pi_data
  rw [h26, h33, h37]
  rw [npDelete_of_bounded vals zIsoPiSelection hbound]
  show Option.map _ (some _) = _
  rw [Option.map_some', hv, hs]

theorem C2_witness :
    42 ≤ (List.replicate 42 "s").length ∧
    (List.replicate 42 (0 : ℚ)).length = (List.replicate 42 "s").length ∧
    (zIsoPiSelection = [12, 13, 14, 25, 27, 31, 32, 34, 35, 36, 38, 39, 40, 41] ∧
     zIsoPiKept (List.replicate 42 "s").length =
       (List.range (List.replicate 42 "s").length).filter
         (fun i => !(zIsoPiSelection.contains i)) ∧
     load_z_iso_pi_data (List.replicate 42 "s") (List.replicate 42 (0 : ℚ)) =
       some ((zIsoPiKept (List.replicate 42 "s").length).filterMap
           (fun i => (List.replicate 42 "s").get? i),
         (zIsoPiKept (List.replicate 42 "s").length).filterMap
           (fun i => (List.replicate 42 (0 : ℚ)).get? i))) :=
  ⟨by simp, by simp,
    C2_z_iso_pi_positions (List.replicate 42 "s") (List.replicate 42 (0 : ℚ))
      (by simp) (by simp)⟩

theorem C1_witness :
    (eIsoPiOutlier :: List.replicate 64 "x").length =
      (List.replicate 65 (0 : ℚ)).length ∧
    65 ≤ (eIsoPiOutlier :: List.replicate 64 "x").length ∧
    eIsoPiOutlier ∈ eIsoPiOutlier :: List.replicate 64 "x" ∧
    ((load_thermal_data (eIsoPiOutlier :: List.replicate 64 "x")
        (List.replicate 65 (0 : ℚ))).1.length =
      (load_thermal_data (eIsoPiOutlier :: List.replicate 64 "x")
        (List.replicate 65 (0 : ℚ))).2.length ∧
     pairLenEq (load_e_iso_pi_data (eIsoPiOutlier :: List.replicate 64 "x")
        (List.replicate 65 (0 : ℚ))) ∧
     pairLenEq (load_e_iso_n_data (eIsoPiOutlier :: List.replicate 64 "x")
        (List.replicate 65 (0 : ℚ))) ∧
     pairLenEq (load_z_iso_pi_data (eIsoPiOutlier :: List.replicate 64 "x")
        (List.replicate 65 (0 : ℚ))) ∧
     pairLenEq (load_z_iso_n_data (eIsoPiOutlier :: List.replicate 64 "x")
        (List.replicate 65 (0 : ℚ)))) :=
  ⟨by simp, by simp, by simp,
    C1_loaders_equal_length (eIsoPiOutlier :: List.replicate 64 "x")
      (List.replicate 65 (0 : ℚ)) (by simp) (by simp) (by simp)⟩

/-- **C4.** For every input table with at least 65 rows, `load_thermal_data`
returns exactly the first 65 identifiers and the first 65 target values, in
file order (so no row at position 65 or beyond appears in either returned
sequence), and both returned sequences have length exactly 65. -/
theorem C4_thermal_first_65 (smiles : List String) (vals : List ℚ)
    (hs : 65 ≤ smiles.length) (hv : 65 ≤ vals.length) :
    load_thermal_data smiles vals = (smiles.take 65, vals.take 65) ∧
    (load_thermal_data smiles vals).1.length = 65 ∧
    (load_thermal_data smiles vals).2.length = 65 := by
  refine ⟨rfl, ?_, ?_⟩ <;>
    · simp only [load_thermal_data, List.length_take]
      omega

theorem C4_witness :
    65 ≤ (List.replicate 70 "s").length ∧ 65 ≤ (List.replicate 70 (0 : ℚ)).length ∧
    (load_thermal_data (List.replicate 70 "s") (List.replicate 70 (0 : ℚ)) =
      ((List.replicate 70 "s").take 65, (List.replicate 70 (0 : ℚ)).take 65) ∧
     (load_thermal_data (List.replicate 70 "s") (List.replicate 70 (0 : ℚ))).1.length = 65 ∧
     (load_thermal_data (List.replicate 70 "s") (List.replicate 70 (0 : ℚ))).2.length = 65) :=
  ⟨by simp, by simp,
    C4_thermal_first_65 (List.replicate 70 "s") (List.replicate 70 (0 : ℚ))
      (by simp) (by simp)⟩

/-- **C3 (counterexample).** A 33-row table whose SMILES column contains the
literal at position 0: the code removes identifier row 0 but target position
31 of the original column, so the removed target does not correspond to the
removed identifier row (it would have to be the target at the literal's index,
position 0). -/
theorem C3_counterexample :
    eIsoPiOutlier ∈ eIsoPiOutlier :: List.replicate 32 "y" ∧
    31 < ((List.range 33).map (fun i : ℕ => (i : ℚ))).length ∧
    load_e_iso_pi_data (eIsoPiOutlier :: List.replicate 32 "y")
        ((List.range 33).map (fun i : ℕ => (i : ℚ))) =
      some (List.replicate 32 "y",
        ((List.range 33).map (fun i : ℕ => (i : ℚ))).eraseIdx 31) ∧
    ((List.range 33).map (fun i : ℕ => (i : ℚ))).eraseIdx 31 ≠
      ((List.range 33).map (fun i : ℕ => (i : ℚ))).eraseIdx
        ((eIsoPiOutlier :: List.replicate 32 "y").indexOf eIsoPiOutlier) := by
  refine ⟨by simp, by rw [List.length_map, List.length_range]; omega, ?_, by decide⟩
  have h := load_e_iso_pi_eq (eIsoPiOutlier :: List.replicate 32 "y")
    ((List.range 33).map (fun i : ℕ => (i : ℚ))) (by simp)
    (by rw [List.length_map, List.length_range]; omega)
  rw [h]
  congr 1

/-- **C3 (amended).** For every input table whose SMILES column contains the
literal identifier string and whose property column has more than 31 rows,
`load_e_iso_pi_data` removes exactly one element from each sequence: the first
occurrence of the literal from the identifier sequence, and the element at
position 31 of the target sequence *as read from the file* (the target column
is never adjusted for the identifier removal, so the two removed entries come
from the same row only when the literal's first occurrence is at position 31);
all other elements are returned unchanged and in their original order. -/
theorem C3_e_iso_pi_amended (smiles : List String) (vals : List ℚ)
    (hlit : eIsoPiOutlier ∈ smiles) (h31 : 31 < vals.length) :
    load_e_iso_pi_data smiles vals =
      some (smiles.eraseIdx (smiles.indexOf eIsoPiOutlier), vals.eraseIdx 31) := by
  rw [List.eraseIdx_indexOf_eq_erase]
  exact load_e_iso_pi_eq smiles vals hlit h31

theorem C3_witness :
    eIsoPiOutlier ∈ ["w", eIsoPiOutlier, "y"] ∧
    31 < ((List.range 33).map (fun i : ℕ => (i : ℚ) + 1)).length ∧
    load_e_iso_pi_data ["w", eIsoPiOutlier, "y"]
        ((List.range 33).map (fun i : ℕ => (i : ℚ) + 1)) =
      some ((["w", eIsoPiOutlier, "y"].eraseIdx
          (["w", eIsoPiOutlier, "y"].indexOf eIsoPiOutlier)),
        ((List.range 33).map (fun i : ℕ => (i : ℚ) + 1)).eraseIdx 31) :=
  ⟨by simp, by rw [List.length_map, List.length_range]; omega,
    C3_e_iso_pi_amended ["w", eIsoPiOutlier, "y"]
      ((List.range 33).map (fun i : ℕ => (i : ℚ) + 1)) (by simp)
      (by rw [List.length_map, List.length_range]; omega)⟩

/-- **C9.** `load_e_iso_pi_data` raises `ValueError` (modelled as `none`)
whenever the literal string does not occur in the SMILES column; when it does
occur (possibly several times), only its first occurrence is removed from the
identifier sequence, and the deletion of the target at index 31 happens
exactly once regardless of the number of occurrences. -/
theorem C9_e_iso_pi_value_error (smiles : List String) (vals : List ℚ) :
    (eIsoPiOutlier ∉ smiles → load_e_iso_pi_data smiles vals = none) ∧
    (eIsoPiOutlier ∈ smiles → 31 < vals.length →
      load_e_iso_pi_data smiles vals =
        some (smiles.eraseIdx (smiles.indexOf eIsoPiOutlier), vals.eraseIdx 31)) := by
  constructor
  · intro h
    unfold load_e_iso_pi_data pyRemove
    rw [if_neg h]
  · intro h1 h2
    rw [List.eraseIdx_indexOf_eq_erase]
    exact load_e_iso_pi_eq smiles vals h1 h2

theorem C9_witness :
    (eIsoPiOutlier ∉ ["a"] ∧ load_e_iso_pi_data ["a"] [] = none) ∧
    (eIsoPiOutlier ∈ [eIsoPiOutlier, eIsoPiOutlier, "z"] ∧
     31 < ((List.range 33).map (fun i : ℕ => (i : ℚ))).length ∧
     load_e_iso_pi_data [eIsoPiOutlier, eIsoPiOutlier, "z"]
         ((List.range 33).map (fun i : ℕ => (i : ℚ))) =
       some (([eIsoPiOutlier, eIsoPiOutlier, "z"].eraseIdx
           ([eIsoPiOutlier, eIsoPiOutlier, "z"].indexOf eIsoPiOutlier)),
         ((List.range 33).map (fun i : ℕ => (i : ℚ))).eraseIdx 31)) :=
  ⟨⟨by decide, (C9_e_iso_pi_value_error ["a"] []).1 (by decide)⟩,
   ⟨by simp, by rw [List.length_map, List.length_range]; omega,
     (C9_e_iso_pi_value_error [eIsoPiOutlier, eIsoPiOutlier, "z"]
       ((List.range 33).map (fun i : ℕ => (i : ℚ)))).2 (by simp)
       (by rw [List.length_map, List.length_range]; omega)⟩⟩

/-- **C8.** Each loader is a deterministic function of the file contents, with
no retained state between calls: two calls given identical column contents
(the same file read twice) return identical identifier and target
sequences. -/
theorem C8_loaders_deterministic (s₁ s₂ : List String) (v₁ v₂ : List ℚ)
    (hs : s₁ = s₂) (hv : v₁ = v₂) :
    load_thermal_data s₁ v₁ = load_thermal_data s₂ v₂ ∧
    load_e_iso_pi_data s₁ v₁ = load_e_iso_pi_data s₂ v₂ ∧
    load_e_iso_n_data s₁ v₁ = load_e_iso_n_data s₂ v₂ ∧
    load_z_iso_pi_data s₁ v₁ = load_z_iso_pi_data s₂ v₂ ∧
    load_z_iso_n_data s₁ v₁ = load_z_iso_n_data s₂ v₂ := by
  subst hs
  subst hv
  exact ⟨rfl, rfl, rfl, rfl, rfl⟩

theorem C8_witness :
    (["m"] : List String) = ["m"] ∧ ([3] : List ℚ) = [3] ∧
    (load_thermal_data ["m"] [3] = load_thermal_data ["m"] [3] ∧
     load_e_iso_pi_data ["m"] [3] = load_e_iso_pi_data ["m"] [3] ∧
     load_e_iso_n_data ["m"] [3] = load_e_iso_n_data ["m"] [3] ∧
     load_z_iso_pi_data ["m"] [3] = load_z_iso_pi_data ["m"] [3] ∧
     load_z_iso_n_data ["m"] [3] = load_z_iso_n_data ["m"] [3]) :=
  ⟨rfl, rfl, C8_loaders_deterministic ["m"] ["m"] [3] [3] rfl rfl⟩

/-- **C5.** The feature scaler fitted inside `transform_data` has per-column
mean and scale equal to the column-wise statistics of `X_train` alone, and,
as a two-run noninterference statement, two calls that agree on `X_train` and
`y_train` but differ arbitrarily in `X_test` and `y_test` return identical
`X_train_scaled`, identical `y_train_scaled`, and an identical fitted target
scaler: test data never influences the fit. -/
theorem C5_no_test_leakage (X_train : List (List ℝ)) (y_train : List ℝ)
    (X_test X_test' : List (List ℝ)) (y_test y_test' : List ℝ)
    (n_components : Option ℕ) (use_pca : Bool) :
    (fitScaler X_train).mean_ =
      (List.range (numCols X_train)).map (fun j => listMean (colVals X_train j)) ∧
    (fitScaler X_train).scale_ =
      (List.range (numCols X_train)).map (fun j => scaleOf (colVals X_train j)) ∧
    (transform_data X_train y_train X_test y_test n_components use_pca).1 =
      (transform_data X_train y_train X_test' y_test' n_components use_pca).1 ∧
    (transform_data X_train y_train X_test y_test n_components use_pca).2.1 =
      (transform_data X_train y_train X_test' y_test' n_components use_pca).2.1 ∧
    (transform_data X_train y_train X_test y_test n_components use_pca).2.2.2.2 =
      (transform_data X_train y_train X_test' y_test' n_components use_pca).2.2.2.2 := by
  refine ⟨rfl, rfl, ?_, ?_, ?_⟩ <;> cases use_pca <;> rfl

theorem scaleOf_ne_zero (l : List ℝ) : scaleOf l ≠ 0 := by
  unfold scaleOf
  split
  · exact one_ne_zero
  · assumption

theorem colVals_reshapeCol (y : List ℝ) : colVals (reshapeCol y) 0 = y := by
  induction y with
  | nil => rfl
  | cons v tl ih =>
    simp only [colVals, reshapeCol, List.map_cons] at ih ⊢
    rw [ih]
    rfl

/-- **C10.** For every call to `transform_data` (on a nonempty training
target vector), the returned `y_train_scaled` and `y_test_scaled` are
two-dimensional single-column matrices of shape `(n, 1)` — every row is a
one-element list — not one-dimensional vectors like the inputs `y_train` and
`y_test`, because the `reshape(-1, 1)` performed for fitting is never undone
before returning. -/
theorem C10_y_scaled_shapes (X_train : List (List ℝ)) (y_train : List ℝ)
    (X_test : List (List ℝ)) (y_test : List ℝ) (n_components : Option ℕ)
    (use_pca : Bool) (hne : y_train ≠ []) :
    (transform_data X_train y_train X_test y_test n_components use_pca).2.1.length
      = y_train.length ∧
    (∀ r ∈ (transform_data X_train y_train X_test y_test n_components use_pca).2.1,
      r.length = 1) ∧
    (transform_data X_train y_train X_test y_test n_components
        use_pca).2.2.2.1.length = y_test.length ∧
    (∀ r ∈ (transform_data X_train y_train X_test y_test n_components
        use_pca).2.2.2.1, r.length = 1) := by
  obtain ⟨v, tl, rfl⟩ : ∃ v tl, y_train = v :: tl := by
    cases y_train with
    | nil => exact absurd rfl hne
    | cons v tl => exact ⟨v, tl, rfl⟩
  have h21 : (transform_data X_train (v :: tl) X_test y_test n_components
        use_pca).2.1 =
      scalerTransform (fitScaler (reshapeCol (v :: tl))) (reshapeCol (v :: tl)) := by
    cases use_pca <;> rfl
  have h2221 : (transform_data X_train (v :: tl) X_test y_test n_components
        use_pca).2.2.2.1 =
      scalerTransform (fitScaler (reshapeCol (v :: tl))) (reshapeCol y_test) := by
    cases use_pca <;> rfl
  have hm : (fitScaler (reshapeCol (v :: tl))).mean_.length = 1 := by
    simp [fitScaler, numCols, reshapeCol]
  have hrow : ∀ (Y : List (List ℝ)) r,
      r ∈ scalerTransform (fitScaler (reshapeCol (v :: tl))) Y → r.length = 1 := by
    intro Y r hr
    obtain ⟨a, _, rfl⟩ := List.mem_map.mp hr
    simp [hm]
  rw [h21, h2221]
  refine ⟨?_, hrow _, ?_, hrow _⟩
  · simp [scalerTransform, reshapeCol]
  · simp [scalerTransform, reshapeCol]

theorem C10_witness :
    ([2] : List ℝ) ≠ [] ∧
    ((transform_data [[1]] [2] [[3]] [4] none false).2.1.length = ([2] : List ℝ).length ∧
     (∀ r ∈ (transform_data [[1]] [2] [[3]] [4] none false).2.1, r.length = 1) ∧
     (transform_data [[1]] [2] [[3]] [4] none false).2.2.2.1.length =
       ([4] : List ℝ).length ∧
     (∀ r ∈ (transform_data [[1]] [2] [[3]] [4] none false).2.2.2.1,
       r.length = 1)) :=
  ⟨by simp, C10_y_scaled_shapes [[1]] [2] [[3]] [4] none false (by simp)⟩

/-- **C6.** For every one-dimensional `y_train` with nonzero standard
deviation (so the affine transform is invertible), the target scaler returned
by `transform_data` satisfies the round-trip equation: applying its inverse
transform to the returned scaled `y_train` recovers the original `y_train`
(as the single-column matrix `y_train.reshape(-1, 1)` the scaler operates
on), exactly, over exact real arithmetic. -/
theorem C6_target_scaler_round_trip (X_train : List (List ℝ)) (y_train : List ℝ)
    (X_test : List (List ℝ)) (y_test : List ℝ) (n_components : Option ℕ)
    (use_pca : Bool) (hstd : Real.sqrt (listVar y_train) ≠ 0) :
    scalerInverseTransform
        (transform_data X_train y_train X_test y_test n_components use_pca).2.2.2.2
        (transform_data X_train y_train X_test y_test n_components use_pca).2.1 =
      reshapeCol y_train := by
  have hsc : (transform_data X_train y_train X_test y_test n_components
        use_pca).2.2.2.2 = fitScaler (reshapeCol y_train) := by
    cases use_pca <;> rfl
  have htr : (transform_data X_train y_train X_test y_test n_components
        use_pca).2.1 =
      scalerTransform (fitScaler (reshapeCol y_train)) (reshapeCol y_train) := by
    cases use_pca <;> rfl
  rw [hsc, htr]
  cases y_train with
  | nil => rfl
  | cons v tl =>
    have hnum : numCols (reshapeCol (v :: tl)) = 1 := rfl
    have hr1 : List.range 1 = [0] := rfl
    have hmean : (fitScaler (reshapeCol (v :: tl))).mean_ = [listMean (v :: tl)] := by
      simp [fitScaler, hnum, hr1, colVals_reshapeCol]
    have hscale : (fitScaler (reshapeCol (v :: tl))).scale_ = [scaleOf (v :: tl)] := by
      simp [fitScaler, hnum, hr1, colVals_reshapeCol]
    unfold scalerTransform scalerInverseTransform
    rw [List.map_map]
    have hpt : ∀ a ∈ reshapeCol (v :: tl),
        ((fun r => (List.range (fitScaler (reshapeCol (v :: tl))).mean_.length).map
            (fun j => r.getD j 0 * (fitScaler (reshapeCol (v :: tl))).scale_.getD j 1 +
              (fitScaler (reshapeCol (v :: tl))).mean_.getD j 0)) ∘
          (fun r => (List.range (fitScaler (reshapeCol (v :: tl))).mean_.length).map
            (fun j => (r.getD j 0 - (fitScaler (reshapeCol (v :: tl))).mean_.getD j 0) /
              (fitScaler (reshapeCol (v :: tl))).scale_.getD j 1))) a = a := by
      intro a ha
      obtain ⟨w, hw, rfl⟩ := List.mem_map.mp ha
      have hr01 : List.range (0 + 1) = [0] := rfl
      simp only [Function.comp_apply, hmean, hscale, List.length_cons,
        List.length_nil, hr01, List.map_cons, List.map_nil,
        List.getD_cons_zero]
      rw [div_mul_cancel₀ _ (scaleOf_ne_zero (v :: tl))]
      simp
    rw [List.map_congr_left hpt, List.map_id']

theorem C6_witness :
    Real.sqrt (listVar [(0 : ℝ), 2]) ≠ 0 ∧
    scalerInverseTransform
        (transform_data [[1]] [(0 : ℝ), 2] [[3]] [5] none false).2.2.2.2
        (transform_data [[1]] [(0 : ℝ), 2] [[3]] [5] none false).2.1 =
      reshapeCol [(0 : ℝ), 2] := by
  have hvar : listVar [(0 : ℝ), 2] = 1 := by
    norm_num [listVar, listMean, List.sum_cons, List.sum_nil]
  have hstd : Real.sqrt (listVar [(0 : ℝ), 2]) ≠ 0 := by
    rw [hvar, Real.sqrt_one]
    norm_num
  exact ⟨hstd,
    C6_target_scaler_round_trip [[1]] [(0 : ℝ), 2] [[3]] [5] none false hstd⟩

theorem pcaEigen_nonneg (X : List (List ℝ)) (i : Fin (numCols X)) :
    0 ≤ pcaEigen X i := by
  by_cases hX : X = []
  · subst hX
    exact (Nat.not_lt_zero i.val i.2).elim
  · have hn : 1 ≤ X.length := List.length_pos.mpr hX
    unfold pcaEigen
    apply mul_nonneg
    · apply inv_nonneg.mpr
      have h1 : (1 : ℝ) ≤ (X.length : ℝ) := by exact_mod_cast hn
      linarith
    · exact (Matrix.posSemidef_conjTranspose_mul_self
        (pcaCentered X)).eigenvalues_nonneg i

theorem pcaEigenTotal_nonneg (X : List (List ℝ)) : 0 ≤ ∑ j, pcaEigen X j :=
  Finset.sum_nonneg fun j _ => pcaEigen_nonneg X j

theorem pcaSortedEigen_nonneg (X : List (List ℝ)) (i : ℕ) :
    0 ≤ pcaSortedEigen X i := by
  unfold pcaSortedEigen
  split
  · exact pcaEigen_nonneg X _
  · exact le_refl 0

theorem pcaRetainedVariance_nonneg (X : List (List ℝ)) (k : ℕ) :
    0 ≤ pcaRetainedVariance X k := by
  unfold pcaRetainedVariance pcaRatio
  exact Finset.sum_nonneg fun i _ =>
    div_nonneg (pcaSortedEigen_nonneg X i) (pcaEigenTotal_nonneg X)

theorem pcaSorted_sum_le_total (X : List (List ℝ)) (k : ℕ)
    (hk : k ≤ numCols X) :
    ∑ i ∈ Finset.range k, pcaSortedEigen X i ≤ ∑ j, pcaEigen X j := by
  rcases Nat.eq_zero_or_pos k with hk0 | hkpos
  · subst hk0
    simpa using pcaEigenTotal_nonneg X
  · have hd : 0 < numCols X := lt_of_lt_of_le hkpos hk
    have key : ∀ i ∈ Finset.range k, pcaSortedEigen X i =
        pcaEigen X (Tuple.sort (pcaEigen X) ⟨numCols X - 1 - i, by omega⟩) := by
      intro i hi
      unfold pcaSortedEigen
      rw [dif_pos hd]
    rw [Finset.sum_congr rfl key]
    have hinj : ∀ x ∈ Finset.range k, ∀ y ∈ Finset.range k,
        (fun i => Tuple.sort (pcaEigen X) ⟨numCols X - 1 - i, by omega⟩ :
          ℕ → Fin (numCols X)) x =
        (fun i => Tuple.sort (pcaEigen X) ⟨numCols X - 1 - i, by omega⟩ :
          ℕ → Fin (numCols X)) y → x = y := by
      intro x hx y hy hxy
      have hx' : x < k := Finset.mem_range.mp hx
      have hy' : y < k := Finset.mem_range.mp hy
      have h2 := (Tuple.sort (pcaEigen X)).injective hxy
      have h3 : numCols X - 1 - x = numCols X - 1 - y := congrArg Fin.val h2
      omega
    calc ∑ i ∈ Finset.range k,
          pcaEigen X (Tuple.sort (pcaEigen X) ⟨numCols X - 1 - i, by omega⟩)
        = ∑ j ∈ (Finset.range k).image
            (fun i => Tuple.sort (pcaEigen X) ⟨numCols X - 1 - i, by omega⟩),
            pcaEigen X j := (Finset.sum_image hinj).symm
      _ ≤ ∑ j, pcaEigen X j :=
          Finset.sum_le_sum_of_subset_of_nonneg (Finset.subset_univ _)
            (fun j _ _ => pcaEigen_nonneg X j)

theorem pcaRetainedVariance_le_one (X : List (List ℝ)) (k : ℕ)
    (hk : k ≤ numCols X) : pcaRetainedVariance X k ≤ 1 := by
  unfold pcaRetainedVariance pcaRatio
  rw [← Finset.sum_div]
  rcases eq_or_lt_of_le (pcaEigenTotal_nonneg X) with hT | hT
  · rw [← hT, div_zero]
    norm_num
  · rw [div_le_one hT]
    exact pcaSorted_sum_le_total X k hk

/-- **C7.** For every call to `transform_data` with `use_pca = True` and
`n_components = k` (with `k` at most the number of feature columns of the
scaled training matrix, so the PCA fit succeeds), the returned
`X_train_scaled` has one row per training sample and exactly `k` columns, and
the printed retained-variance diagnostic (the sum of the explained-variance
ratios of the kept components) lies in the interval `[0, 1]`. -/
theorem C7_pca_shape_and_retained_variance (X_train : List (List ℝ))
    (y_train : List ℝ) (X_test : List (List ℝ)) (y_test : List ℝ) (k : ℕ)
    (hk : k ≤ numCols (scalerTransform (fitScaler X_train) X_train)) :
    (transform_data X_train y_train X_test y_test (some k) true).1.length =
      X_train.length ∧
    (∀ r ∈ (transform_data X_train y_train X_test y_test (some k) true).1,
      r.length = k) ∧
    0 ≤ pcaRetainedVariance (scalerTransform (fitScaler X_train) X_train) k ∧
    pcaRetainedVariance (scalerTransform (fitScaler X_train) X_train) k ≤ 1 := by
  have h1 : (transform_data X_train y_train X_test y_test (some k) true).1 =
      pcaFitTransform (scalerTransform (fitScaler X_train) X_train) k := rfl
  refine ⟨?_, ?_, pcaRetainedVariance_nonneg _ _,
    pcaRetainedVariance_le_one _ k hk⟩
  · rw [h1]
    simp [pcaFitTransform, scalerTransform]
  · rw [h1]
    intro r hr
    obtain ⟨a, _, rfl⟩ := List.mem_map.mp hr
    simp [pcaProject]

theorem C7_witness :
    1 ≤ numCols (scalerTransform (fitScaler [[1, 2], [3, 5]]) [[1, 2], [3, 5]]) ∧
    ((transform_data [[1, 2], [3, 5]] [0, 2] [[0, 0]] [1] (some 1) true).1.length =
       ([[1, 2], [3, 5]] : List (List ℝ)).length ∧
     (∀ r ∈ (transform_data [[1, 2], [3, 5]] [0, 2] [[0, 0]] [1] (some 1) true).1,
       r.length = 1) ∧
     0 ≤ pcaRetainedVariance
       (scalerTransform (fitScaler [[1, 2], [3, 5]]) [[1, 2], [3, 5]]) 1 ∧
     pcaRetainedVariance
       (scalerTransform (fitScaler [[1, 2], [3, 5]]) [[1, 2], [3, 5]]) 1 ≤ 1) :=
  ⟨by simp [scalerTransform, fitScaler, numCols],
   C7_pca_shape_and_retained_variance [[1, 2], [3, 5]] [0, 2] [[0, 0]] [1] 1
     (by simp [scalerTransform, fitScaler, numCols])⟩
